import Mathlib

/-!
# Verification of the redis note connector (`ashaw_notes/connectors/redis_notes.py`)

Shallow embedding of the indexing / search core of the note store:

* the tokenizer `get_note_tokens` (word runs, `#`-tag runs, five temporal
  tokens derived from `time.gmtime`),
* the key builders `get_word_key` / `get_note_key`,
* the store operations `add_redis_note`, `delete_redis_note`, `update_note`,
* the search resolver `find_redis_notes`,
* `get_common_words`.

Modelling conventions:

* Strings are Lean `String`s (a structure over `List Char`); the regexes
  `(\w+)` and `(#[A-z0-9-_]+)` are modelled over ASCII characters (the notes
  and the keys the module builds are ASCII; Python's `\w` is additionally
  unicode-aware, which no claim depends on).  Python's `str.lower` is modelled
  by the ASCII `lowerChar` map written as an explicit 26-way case split so
  that proofs can follow it by case analysis.
* The redis keyspace is modelled by a `Store` with a set-valued map for the
  postings sets (`SADD`/`SREM`/`SINTER`/`SUNION` touch it) and an association
  list for the note values (`SET`/`GET`/`EXISTS`/`DEL`/`MGET`/`KEYS note_*`
  touch it).  No postings key ever equals a note key (postings keys start
  with `w_`, `year_`, `month_`, `day_`, `hour_` or `weekday_`; note keys with
  `note_`), so the two maps cannot interfere, exactly as the two redis value
  types cannot.
* The note value for timestamp `ts` lives under key `note_<ts>`; since
  `<ts> ↦ note_<ts>` is injective and `int(key[len("note_"):])` recovers
  exactly `ts`, the association list is indexed by the timestamp itself.
* Timestamps are `Nat` (seconds since the epoch, as the spec states).
* A fetched redis value that is absent decodes as `None.decode(...)`, which
  raises; `find_redis_notes` therefore returns an `Option`, `none` standing
  for that raise.
-/

namespace RedisNotes

/-! ## Characters and lower-casing -/

/-- ASCII word character, the ASCII part of the regex class `\w` =
`[a-zA-Z0-9_]`, written on the character code (`a`–`z` is 97–122, `A`–`Z`
is 65–90, `0`–`9` is 48–57, `_` is 95) so that proofs are plain
arithmetic. -/
def wordChar (c : Char) : Bool :=
  (97 ≤ c.toNat && c.toNat ≤ 122) || (65 ≤ c.toNat && c.toNat ≤ 90) ||
    (48 ≤ c.toNat && c.toNat ≤ 57) || c.toNat = 95

/-- A character matched by the tag-body class `[A-z0-9-_]`.  The range
`A-z` runs over ASCII codes 65–122 and therefore also contains the six
characters `[`, `\`, `]`, `^`, `_`, `` ` `` (91–96) lying between `Z` and
`a`; `-` is 45 and `_` is 95. -/
def tagChar (c : Char) : Bool :=
  (65 ≤ c.toNat && c.toNat ≤ 122) || (48 ≤ c.toNat && c.toNat ≤ 57) ||
    c.toNat = 45 || c.toNat = 95

/-- ASCII lower-casing of one character (the effect of Python's `str.lower`
on the ASCII characters the module handles): add 32 to the code of an
upper-case letter, change nothing else. -/
def lowerChar (c : Char) : Char :=
  if h : 65 ≤ c.toNat ∧ c.toNat ≤ 90 then
    Char.ofNatAux (c.toNat + 32) (Or.inl (by omega))
  else c

/-- Python's `str.lower` on ASCII strings. -/
def lowerStr (s : String) : String :=
  String.mk (s.data.map lowerChar)

/-! ## Key builders -/

/-- `get_word_key`: `"w_%s" % word.lower()`. -/
def get_word_key (word : String) : String :=
  "w_" ++ lowerStr word

/-- `get_note_key`: `"note_%s" % timestamp`. -/
def get_note_key (timestamp : Nat) : String :=
  "note_" ++ toString timestamp

/-! ## `time.gmtime` -/

/-- The fields of Python's `time.struct_time` that the tokenizer uses
(`tm_mon` is 1–12, `tm_mday` 1–31, `tm_hour` 0–23, `tm_wday` 0–6 with
Monday = 0). -/
structure Tm where
  tm_year : Nat
  tm_mon : Nat
  tm_mday : Nat
  tm_hour : Nat
  tm_wday : Nat
deriving DecidableEq, Repr

/-- `time.gmtime` for a non-negative timestamp: the proleptic Gregorian
(civil) calendar date in UTC, via the standard era/day-of-era computation.
Day 0 (1970-01-01) was a Thursday, hence `(days + 3) % 7` for the
Monday-is-0 weekday. -/
def gmtime (ts : Nat) : Tm :=
  let days := ts / 86400
  let secs := ts % 86400
  let z := days + 719468
  let era := z / 146097
  let doe := z % 146097
  let yoe := (doe - doe / 1460 + doe / 36524 - doe / 146096) / 365
  let y := yoe + era * 400
  let doy := doe - (365 * yoe + yoe / 4 - yoe / 100)
  let mp := (5 * doy + 2) / 153
  let d := doy - (153 * mp + 2) / 5 + 1
  let m := if mp < 10 then mp + 3 else mp - 9
  { tm_year := if m ≤ 2 then y + 1 else y
    tm_mon := m
    tm_mday := d
    tm_hour := secs / 3600
    tm_wday := (days + 3) % 7 }

example : gmtime 0 = ⟨1970, 1, 1, 0, 3⟩ := by decide
example : gmtime 1592222400 = ⟨2020, 6, 15, 12, 0⟩ := by decide

/-! ## Regex run extraction -/

/-- Scanner for `re.findall(r'(\w+)', line)` (with `p := wordChar`): `acc`
holds the reversed characters of the run currently being read. -/
def runsAux (p : Char → Bool) : List Char → List Char → List (List Char)
  | [], acc => if acc = [] then [] else [acc.reverse]
  | c :: cs, acc =>
    if p c then runsAux p cs (c :: acc)
    else if acc = [] then runsAux p cs []
    else acc.reverse :: runsAux p cs []

/-- `re.findall(r'(\w+)', line)` with `p := wordChar`: the maximal non-empty
runs of characters satisfying `p`, in order. -/
def runs (p : Char → Bool) (l : List Char) : List (List Char) :=
  runsAux p l []

/-- Scanner for `re.findall(r'(#[A-z0-9-_]+)', line)`: `acc` holds the
reversed characters of the candidate match currently being read (so `acc`
ends with the `'#'` that started it); a candidate is emitted only if at
least one tag character followed the `'#'`. -/
def tagRunsAux : List Char → List Char → List (List Char)
  | [], acc => if 2 ≤ acc.length then [acc.reverse] else []
  | c :: cs, acc =>
    if acc = [] then
      if c = '#' then tagRunsAux cs [c] else tagRunsAux cs []
    else if tagChar c then
      tagRunsAux cs (c :: acc)
    else
      (if 2 ≤ acc.length then [acc.reverse] else [])
        ++ (if c = '#' then tagRunsAux cs [c] else tagRunsAux cs [])

/-- `re.findall(r'(#[A-z0-9-_]+)', line)`: a match is a `#` followed by a
maximal non-empty run of `tagChar`s; on a failed match the scan advances one
character. -/
def tagRuns (l : List Char) : List (List Char) :=
  tagRunsAux l []

/-- The word parts of a line, as strings. -/
def wordParts (line : String) : List String :=
  (runs wordChar line.data).map fun l => String.mk l

/-- The tag parts of a line, as strings. -/
def tagParts (line : String) : List String :=
  (tagRuns line.data).map fun l => String.mk l

example : wordParts "buy milk #errand" = ["buy", "milk", "errand"] := by decide
example : tagParts "buy milk #errand" = ["#errand"] := by decide
example : tagParts "#a[" = ["#a["] := by decide

/-! ## The tokenizer `get_note_tokens` -/

/-- The five temporal tokens appended by `get_note_tokens`; note they are
*not* passed through `get_word_key`. -/
def temporalTokens (timestamp : Nat) : List String :=
  let note_time := gmtime timestamp
  ["year_" ++ toString note_time.tm_year,
   "month_" ++ toString note_time.tm_mon,
   "day_" ++ toString note_time.tm_mday,
   "hour_" ++ toString note_time.tm_hour,
   "weekday_" ++ toString note_time.tm_wday]

/-- `get_note_tokens(timestamp, line)`: word tokens (deduplicated, first
occurrence kept), then tag tokens (deduplicated against everything so far),
then the five temporal tokens. -/
def get_note_tokens (timestamp : Nat) (line : String) : List String :=
  let tokens1 :=
    (wordParts line).foldl
      (fun tokens part =>
        if get_word_key (lowerStr part) ∈ tokens then tokens
        else tokens ++ [get_word_key (lowerStr part)]) []
  let tokens2 :=
    (tagParts line).foldl
      (fun tokens part =>
        if get_word_key (lowerStr part) ∈ tokens then tokens
        else tokens ++ [get_word_key (lowerStr part)]) tokens1
  tokens2 ++ temporalTokens timestamp

example :
    get_note_tokens 0 "Buy milk #errand buy" =
      ["w_buy", "w_milk", "w_errand", "w_#errand",
       "year_1970", "month_1", "day_1", "hour_0", "weekday_3"] := by decide

/-! ## The redis store

Postings sets (redis sets, touched by `SADD`/`SREM`/`SINTER`/`SUNION`) and
note values (redis strings under `note_<ts>`, touched by
`SET`/`GET`/`EXISTS`/`DEL`/`MGET`/`KEYS note_*`).  A redis set key with no
members is the same as an absent key, so the postings map is total with
default `∅`.  The note values form an association list so that
`KEYS note_*` can enumerate them; it is indexed by the timestamp because
`ts ↦ note_<ts>` is injective and `int(key[len("note_"):])` recovers `ts`. -/

/-- Lookup in the note-value association list (`GET note_<ts>`). -/
def getVal : List (Nat × String) → Nat → Option String
  | [], _ => none
  | (t, v) :: rest, ts => if t = ts then some v else getVal rest ts

/-- Write to the note-value association list (`SET note_<ts> v`). -/
def setVal : List (Nat × String) → Nat → String → List (Nat × String)
  | [], ts, v => [(ts, v)]
  | (t, w) :: rest, ts, v =>
    if t = ts then (t, v) :: rest else (t, w) :: setVal rest ts v

/-- The modelled redis keyspace. -/
structure Store where
  sets : String → Finset Nat
  notes : List (Nat × String)

/-- A freshly flushed redis instance. -/
def emptyStore : Store :=
  { sets := fun _ => ∅, notes := [] }

/-- `SADD token member`. -/
def Store.sadd (st : Store) (k : String) (m : Nat) : Store :=
  { st with sets := fun k' => if k' = k then insert m (st.sets k) else st.sets k' }

/-- `SREM token member`. -/
def Store.srem (st : Store) (k : String) (m : Nat) : Store :=
  { st with sets := fun k' => if k' = k then (st.sets k).erase m else st.sets k' }

/-- `SINTER k₁ … kₙ` (the connector only calls it with `n ≥ 1`). -/
def Store.sinter (st : Store) : List String → Finset Nat
  | [] => ∅
  | k :: ks => ks.foldl (fun acc k' => acc ∩ st.sets k') (st.sets k)

/-- `SUNION k₁ … kₙ`. -/
def Store.sunion (st : Store) (ks : List String) : Finset Nat :=
  ks.foldl (fun acc k => acc ∪ st.sets k) ∅

/-- `GET note_<ts>` (decoded). -/
def Store.getNote (st : Store) (ts : Nat) : Option String :=
  getVal st.notes ts

/-- `SET note_<ts> v`. -/
def Store.setNote (st : Store) (ts : Nat) (v : String) : Store :=
  { st with notes := setVal st.notes ts v }

/-- `DEL note_<ts>`. -/
def Store.delNote (st : Store) (ts : Nat) : Store :=
  { st with notes := st.notes.filter fun p => p.1 ≠ ts }

/-- The timestamps recovered from `KEYS note_*` by stripping the
`note_` key prefix (the code wraps the reply in a Python `set`). -/
def all_note_timestamps (st : Store) : Finset Nat :=
  (st.notes.map Prod.fst).toFinset

/-! ## The note repository operations -/

/-- `add_redis_note(timestamp, note)`: `SADD token timestamp` for every
token, then `SET note_<timestamp> note`. -/
def add_redis_note (st : Store) (timestamp : Nat) (note : String) : Store :=
  let tokens := get_note_tokens timestamp note
  let st1 := tokens.foldl (fun s token => s.sadd token timestamp) st
  st1.setNote timestamp note

/-- `delete_redis_note(timestamp)`: nothing if `EXISTS note_<timestamp>`
fails; otherwise re-tokenize the stored line, `SREM token timestamp` for
every token, then `DEL note_<timestamp>`. -/
def delete_redis_note (st : Store) (timestamp : Nat) : Store :=
  match st.getNote timestamp with
  | none => st
  | some line =>
    let tokens := get_note_tokens timestamp line
    let st1 := tokens.foldl (fun s token => s.srem token timestamp) st
    st1.delNote timestamp

/-- `save_note(timestamp, note)`. -/
def save_note (st : Store) (timestamp : Nat) (note : String) : Store :=
  add_redis_note st timestamp note

/-- `delete_note(timestamp)`. -/
def delete_note (st : Store) (timestamp : Nat) : Store :=
  delete_redis_note st timestamp

/-- `update_note(original_timestamp, new_timestamp, new_note)`:
delete then save. -/
def update_note (st : Store) (original_timestamp new_timestamp : Nat)
    (new_note : String) : Store :=
  save_note (delete_note st original_timestamp) new_timestamp new_note

/-! ## The search resolver -/

/-- A parsed search request (built by `ashaw_notes.utils.search`, out of
scope): inclusion and exclusion terms.  Python holds them as sets; the list
order is irrelevant to every set operation performed on them, and the
`if search_request.inclusion_terms:` truthiness test is the non-emptiness
test. -/
structure SearchRequest where
  inclusion_terms : List String
  exclusion_terms : List String

/-- The timestamp set `find_redis_notes` resolves before post-processing:
intersection of the inclusion postings, minus the union of the exclusion
postings; with no inclusion terms the note-key scan stands in for the
intersection. -/
def resolve_timestamps (st : Store) (req : SearchRequest) : Finset Nat :=
  if req.inclusion_terms ≠ [] then
    let ts0 := st.sinter (req.inclusion_terms.map get_word_key)
    if req.exclusion_terms ≠ [] then
      ts0 \ st.sunion (req.exclusion_terms.map get_word_key)
    else ts0
  else if req.exclusion_terms ≠ [] then
    all_note_timestamps st \ st.sunion (req.exclusion_terms.map get_word_key)
  else
    all_note_timestamps st

/-- `timestamps.sort()`: the elements of the resolved set as an ascending
list.  (Insertion sort, so that it evaluates inside the kernel; the bridge
lemma `sortTimestamps_eq_sort` below identifies it with `Finset.sort`.) -/
def sortTimestamps (s : Finset Nat) : List Nat :=
  Quot.liftOn s.val (fun l => l.insertionSort (· ≤ ·)) fun _ _ h =>
    List.eq_of_perm_of_sorted
      ((List.perm_insertionSort _ _).trans (h.trans (List.perm_insertionSort _ _).symm))
      (List.sorted_insertionSort _ _) (List.sorted_insertionSort _ _)

theorem sortTimestamps_eq_sort (s : Finset Nat) :
    sortTimestamps s = s.sort (· ≤ ·) := by
  rcases s with ⟨m, hm⟩
  refine Quot.inductionOn m (fun l => ?_) hm
  intro hl
  exact (List.mergeSort_eq_insertionSort _ l).symm

/-- `find_redis_notes(search_request)`: resolve the timestamp set, sort it
ascending, return the sentinel `[(None, None)]` if it is empty, otherwise
`MGET` all note values, decode them and zip them positionally with the
sorted timestamps.  `None.decode(...)` raises, so a missing note value makes
the whole call fail (`none`). -/
def find_redis_notes (st : Store) (req : SearchRequest) :
    Option (List (Option Nat × Option String)) :=
  let sorted := sortTimestamps (resolve_timestamps st req)
  if sorted = [] then
    some [(none, none)]
  else
    match (sorted.map fun ts => st.getNote ts).mapM id with
    | none => none
    | some notes => some ((sorted.zip notes).map fun p => (some p.1, some p.2))

/-- `get_common_words()`, as a function of the key list the store holds:
keep the keys matching the pattern `w_*` (those whose first two characters
are `w_`), strip the first two characters of each, and collect the results
into a set. -/
def get_common_words (keys : List String) : Finset String :=
  ((keys.filter fun k => k.data.take 2 == "w_".data).map
    fun w => String.mk (w.data.drop 2)).toFinset

example :
    find_redis_notes emptyStore ⟨["nonexistentword"], []⟩ = some [(none, none)] := by
  decide

example :
    find_redis_notes (add_redis_note emptyStore 100 "buy milk") ⟨["buy"], []⟩ =
      some [(some 100, some "buy milk")] := by
  decide

/-! ## Store lemmas -/

theorem getVal_setVal (l : List (Nat × String)) (ts : Nat) (v : String) (ts' : Nat) :
    getVal (setVal l ts v) ts' = if ts' = ts then some v else getVal l ts' := by
  induction l with
  | nil =>
    simp only [setVal, getVal]
    split <;> split <;> first | rfl | omega
  | cons p rest ih =>
    obtain ⟨t, w⟩ := p
    simp only [setVal]
    by_cases h1 : t = ts
    · subst h1
      simp only [if_pos rfl, getVal]
      split <;> split <;> first | rfl | omega
    · simp only [if_neg h1, getVal, ih]
      by_cases h2 : t = ts'
      · subst h2
        simp [h1]
      · simp [h2]

theorem getVal_filter (l : List (Nat × String)) (ts ts' : Nat) :
    getVal (l.filter fun p => p.1 ≠ ts) ts' =
      if ts' = ts then none else getVal l ts' := by
  induction l with
  | nil => simp [getVal]
  | cons p rest ih =>
    obtain ⟨t, w⟩ := p
    simp only [List.filter_cons]
    by_cases h1 : t = ts
    · subst h1
      rw [if_neg (by simp)]
      rw [ih]
      simp only [getVal]
      split
      · rfl
      · rw [if_neg (by omega)]
    · rw [if_pos (by simp [h1])]
      simp only [getVal, ih]
      by_cases h2 : t = ts'
      · subst h2
        simp [h1]
      · simp [h2]

theorem sets_sadd (st : Store) (k : String) (m : Nat) (t : String) :
    (st.sadd k m).sets t = if t = k then insert m (st.sets t) else st.sets t := by
  by_cases h : t = k <;> simp [Store.sadd, h]

theorem sets_srem (st : Store) (k : String) (m : Nat) (t : String) :
    (st.srem k m).sets t = if t = k then (st.sets t).erase m else st.sets t := by
  by_cases h : t = k <;> simp [Store.srem, h]

theorem sets_foldl_sadd (toks : List String) (st : Store) (m : Nat) (t : String) :
    (toks.foldl (fun s token => s.sadd token m) st).sets t =
      if t ∈ toks then insert m (st.sets t) else st.sets t := by
  induction toks generalizing st with
  | nil => simp
  | cons tok rest ih =>
    simp only [List.foldl_cons, ih, sets_sadd, List.mem_cons]
    by_cases h1 : t ∈ rest <;> by_cases h2 : t = tok <;>
      simp [h1, h2, Finset.insert_idem]

theorem sets_foldl_srem (toks : List String) (st : Store) (m : Nat) (t : String) :
    (toks.foldl (fun s token => s.srem token m) st).sets t =
      if t ∈ toks then (st.sets t).erase m else st.sets t := by
  induction toks generalizing st with
  | nil => simp
  | cons tok rest ih =>
    simp only [List.foldl_cons, ih, sets_srem, List.mem_cons]
    by_cases h1 : t ∈ rest <;> by_cases h2 : t = tok <;>
      simp [h1, h2, Finset.erase_idem]

theorem notes_foldl_sadd (toks : List String) (st : Store) (m : Nat) :
    (toks.foldl (fun s token => s.sadd token m) st).notes = st.notes := by
  induction toks generalizing st with
  | nil => rfl
  | cons tok rest ih =>
    rw [List.foldl_cons, ih]
    rfl

theorem notes_foldl_srem (toks : List String) (st : Store) (m : Nat) :
    (toks.foldl (fun s token => s.srem token m) st).notes = st.notes := by
  induction toks generalizing st with
  | nil => rfl
  | cons tok rest ih =>
    rw [List.foldl_cons, ih]
    rfl

/-- Postings after `add_redis_note`: the timestamp is inserted into exactly
the postings sets of the note's tokens. -/
theorem sets_add_redis_note (st : Store) (ts : Nat) (note : String) (t : String) :
    (add_redis_note st ts note).sets t =
      if t ∈ get_note_tokens ts note then insert ts (st.sets t) else st.sets t := by
  simp [add_redis_note, Store.setNote, sets_foldl_sadd]

/-- Note values after `add_redis_note`: the note is written at its
timestamp, everything else is untouched. -/
theorem getNote_add_redis_note (st : Store) (ts : Nat) (note : String) (ts' : Nat) :
    (add_redis_note st ts note).getNote ts' =
      if ts' = ts then some note else st.getNote ts' := by
  simp [add_redis_note, Store.setNote, Store.getNote, getVal_setVal, notes_foldl_sadd]

/-- `delete_redis_note` on an absent timestamp is a no-op returning the very
same store. -/
theorem delete_redis_note_of_none (st : Store) (ts : Nat)
    (h : st.getNote ts = none) : delete_redis_note st ts = st := by
  simp [delete_redis_note, h]

/-- Postings after `delete_redis_note` of a present note: the timestamp is
erased from exactly the postings sets of the stored line's tokens. -/
theorem sets_delete_redis_note (st : Store) (ts : Nat) (line : String)
    (h : st.getNote ts = some line) (t : String) :
    (delete_redis_note st ts).sets t =
      if t ∈ get_note_tokens ts line then (st.sets t).erase ts else st.sets t := by
  simp [delete_redis_note, h, Store.delNote, sets_foldl_srem]

/-- Note values after `delete_redis_note`: the note at the timestamp is
gone (whether or not it was there), everything else is untouched. -/
theorem getNote_delete_redis_note (st : Store) (ts ts' : Nat) :
    (delete_redis_note st ts).getNote ts' =
      if ts' = ts then none else st.getNote ts' := by
  cases h : st.getNote ts with
  | none =>
    rw [delete_redis_note_of_none st ts h]
    by_cases h2 : ts' = ts <;> simp [h2, h]
  | some line =>
    have h' : getVal st.notes ts = some line := h
    simp [delete_redis_note, h, h', Store.delNote, Store.getNote, notes_foldl_srem]
    simpa [ne_eq, decide_not] using getVal_filter st.notes ts ts'

/-! ## The postings/value invariant -/

/-- The index/value consistency invariant of §3/§8 of the spec: a timestamp
is in a token's postings set iff the note currently stored at that timestamp
tokenizes to include that token. -/
def Inv (st : Store) : Prop :=
  ∀ t ts, ts ∈ st.sets t ↔
    ∃ note, st.getNote ts = some note ∧ t ∈ get_note_tokens ts note

theorem inv_emptyStore : Inv emptyStore := by
  intro t ts
  simp [emptyStore, Store.getNote, getVal]

theorem inv_add (st : Store) (ts : Nat) (note : String) (hinv : Inv st)
    (hfresh : st.getNote ts = none) : Inv (add_redis_note st ts note) := by
  intro t u
  rw [sets_add_redis_note, getNote_add_redis_note]
  by_cases hu : u = ts
  · subst hu
    rw [if_pos rfl]
    by_cases ht : t ∈ get_note_tokens u note
    · rw [if_pos ht]
      constructor
      · intro _
        exact ⟨note, rfl, ht⟩
      · intro _
        exact Finset.mem_insert_self u _
    · rw [if_neg ht, hinv t u, hfresh]
      simp [ht]
  · rw [if_neg hu]
    have hmem :
        u ∈ (if t ∈ get_note_tokens ts note then insert ts (st.sets t) else st.sets t) ↔
          u ∈ st.sets t := by
      split
      · simp [Finset.mem_insert, hu]
      · exact Iff.rfl
    rw [hmem, hinv t u]

theorem inv_delete (st : Store) (ts : Nat) (hinv : Inv st) :
    Inv (delete_redis_note st ts) := by
  cases h : st.getNote ts with
  | none =>
    rw [delete_redis_note_of_none st ts h]
    exact hinv
  | some line =>
    intro t u
    rw [sets_delete_redis_note st ts line h, getNote_delete_redis_note]
    by_cases hu : u = ts
    · subst hu
      rw [if_pos rfl]
      constructor
      · intro hmem
        exfalso
        by_cases ht : t ∈ get_note_tokens u line
        · rw [if_pos ht] at hmem
          exact Finset.not_mem_erase u _ hmem
        · rw [if_neg ht] at hmem
          obtain ⟨n, hn, htok⟩ := (hinv t u).mp hmem
          rw [h] at hn
          obtain rfl : line = n := by injection hn
          exact ht htok
      · intro hex
        obtain ⟨n, hn, _⟩ := hex
        exact Option.noConfusion hn
    · rw [if_neg hu]
      have hmem :
          u ∈ (if t ∈ get_note_tokens ts line then (st.sets t).erase ts else st.sets t) ↔
            u ∈ st.sets t := by
        split
        · simp [Finset.mem_erase, hu]
        · exact Iff.rfl
      rw [hmem, hinv t u]

/-! ## Sequences of repository calls -/

/-- One call of the repository interface. -/
inductive NoteOp where
  | save (timestamp : Nat) (note : String)
  | delete (timestamp : Nat)
  | update (original_timestamp new_timestamp : Nat) (new_note : String)

/-- Apply one call. -/
def applyOp (st : Store) : NoteOp → Store
  | .save ts note => save_note st ts note
  | .delete ts => delete_note st ts
  | .update ts1 ts2 note => update_note st ts1 ts2 note

/-- Apply a sequence of calls in order. -/
def applyOps (st : Store) (ops : List NoteOp) : Store :=
  ops.foldl applyOp st

/-- Every `save` of the sequence — including the save step of an `update` —
writes to a timestamp that holds no note at that moment (the §4.3 caveat:
`save` over an existing note leaves stale postings behind). -/
def freshSaves (st : Store) : List NoteOp → Bool
  | [] => true
  | op :: rest =>
    (match op with
     | .save ts _ => (st.getNote ts).isNone
     | .delete _ => true
     | .update ts1 ts2 _ => ((delete_note st ts1).getNote ts2).isNone)
    && freshSaves (applyOp st op) rest

theorem inv_applyOps (ops : List NoteOp) (st : Store) (hinv : Inv st)
    (h : freshSaves st ops = true) : Inv (applyOps st ops) := by
  induction ops generalizing st with
  | nil => exact hinv
  | cons op rest ih =>
    simp only [applyOps, List.foldl_cons]
    cases op with
    | save ts note =>
      simp only [freshSaves, Bool.and_eq_true] at h
      exact ih (applyOp st (.save ts note))
        (inv_add st ts note hinv (Option.isNone_iff_eq_none.mp h.1)) h.2
    | delete ts =>
      simp only [freshSaves, Bool.and_eq_true] at h
      exact ih (applyOp st (.delete ts)) (inv_delete st ts hinv) h.2
    | update ts1 ts2 note =>
      simp only [freshSaves, Bool.and_eq_true] at h
      exact ih (applyOp st (.update ts1 ts2 note))
        (inv_add _ ts2 note (inv_delete st ts1 hinv)
          (Option.isNone_iff_eq_none.mp h.1)) h.2

theorem freshSaves_append (st : Store) (l1 l2 : List NoteOp)
    (h : freshSaves st (l1 ++ l2) = true) : freshSaves st l1 = true := by
  induction l1 generalizing st with
  | nil => rfl
  | cons op rest ih =>
    rw [List.cons_append] at h
    simp only [freshSaves, Bool.and_eq_true] at h ⊢
    exact ⟨h.1, ih _ h.2⟩

/-! ## Search resolver lemmas -/

theorem mapM_id_of_isSome (l : List (Option String)) (h : ∀ x ∈ l, x.isSome) :
    l.mapM id = some (l.map fun x => x.getD "") := by
  induction l with
  | nil => rfl
  | cons a rest ih =>
    obtain ⟨v, hv⟩ := Option.isSome_iff_exists.mp (h a (by simp))
    rw [List.mapM_cons, hv, ih fun x hx => h x (by simp [hx])]
    simp [hv]

theorem zip_self_map {α β : Type} (l : List α) (g : α → β) :
    l.zip (l.map g) = l.map fun a => (a, g a) := by
  induction l with
  | nil => rfl
  | cons a rest ih => simp [ih]

theorem some_getD (x : Option String) (hx : x.isSome) : some (x.getD "") = x := by
  cases x
  · simp at hx
  · rfl

theorem sortTimestamps_ne_nil (s : Finset Nat) (h : s ≠ ∅) :
    sortTimestamps s ≠ [] := by
  rw [sortTimestamps_eq_sort]
  intro hnil
  apply h
  have hlen := Finset.length_sort (α := Nat) (· ≤ ·) (s := s)
  rw [hnil] at hlen
  exact Finset.card_eq_zero.mp hlen.symm

theorem mem_sortTimestamps (s : Finset Nat) (u : Nat) :
    u ∈ sortTimestamps s ↔ u ∈ s := by
  rw [sortTimestamps_eq_sort]
  exact Finset.mem_sort _

/-- What `find_redis_notes` returns when the resolved set is non-empty and
every resolved timestamp still holds a note: the ascending timestamps zipped
with their note values. -/
theorem find_redis_notes_eq (st : Store) (req : SearchRequest)
    (h1 : resolve_timestamps st req ≠ ∅)
    (h2 : ∀ u ∈ resolve_timestamps st req, (st.getNote u).isSome) :
    find_redis_notes st req =
      some ((sortTimestamps (resolve_timestamps st req)).map
        fun u => (some u, st.getNote u)) := by
  have hne := sortTimestamps_ne_nil _ h1
  have hall : ∀ x ∈ (sortTimestamps (resolve_timestamps st req)).map
      (fun ts => st.getNote ts), x.isSome := by
    intro x hx
    obtain ⟨u, hu, rfl⟩ := List.mem_map.mp hx
    exact h2 u ((mem_sortTimestamps _ u).mp hu)
  simp only [find_redis_notes]
  rw [if_neg hne, mapM_id_of_isSome _ hall]
  dsimp only
  simp only [List.map_map, zip_self_map]
  refine congrArg some (List.map_congr_left fun u hu => ?_)
  simp only [Function.comp_apply]
  rw [some_getD _ (h2 u ((mem_sortTimestamps _ u).mp hu))]

/-- Every pair `find_redis_notes` returns is either the sentinel's `None`
or carries a timestamp of the resolved set. -/
theorem find_redis_notes_mem_fst (st : Store) (req : SearchRequest)
    (l : List (Option Nat × Option String))
    (hfind : find_redis_notes st req = some l)
    (p : Option Nat × Option String) (hp : p ∈ l) :
    p.1 = none ∨ ∃ u, p.1 = some u ∧ u ∈ resolve_timestamps st req := by
  simp only [find_redis_notes] at hfind
  by_cases hnil : sortTimestamps (resolve_timestamps st req) = []
  · rw [if_pos hnil] at hfind
    obtain rfl : [((none : Option Nat), (none : Option String))] = l := by
      injection hfind
    obtain rfl : p = (none, none) := by simpa using hp
    exact Or.inl rfl
  · rw [if_neg hnil] at hfind
    cases hmap : (((sortTimestamps (resolve_timestamps st req)).map
        fun ts => st.getNote ts)).mapM id with
    | none =>
      rw [hmap] at hfind
      exact absurd hfind (by simp)
    | some notes =>
      rw [hmap] at hfind
      obtain rfl :
          ((sortTimestamps (resolve_timestamps st req)).zip notes).map
            (fun p => ((some p.1 : Option Nat), (some p.2 : Option String))) = l := by
        injection hfind
      obtain ⟨⟨u, v⟩, huv, rfl⟩ := List.mem_map.mp hp
      refine Or.inr ⟨u, rfl, ?_⟩
      exact (mem_sortTimestamps _ u).mp (List.of_mem_zip huv).1

theorem sinter_singleton (st : Store) (k : String) : st.sinter [k] = st.sets k :=
  rfl

theorem resolve_timestamps_single_inclusion (st : Store) (w : String) :
    resolve_timestamps st ⟨[w], []⟩ = st.sets (get_word_key w) := by
  simp [resolve_timestamps, Store.sinter]

/-! ## Character lemmas -/

theorem lowerChar_toNat (c : Char) :
    (lowerChar c).toNat =
      if 65 ≤ c.toNat ∧ c.toNat ≤ 90 then c.toNat + 32 else c.toNat := by
  unfold lowerChar
  split <;> rfl

theorem lowerChar_of_not_upper (c : Char) (h : ¬(65 ≤ c.toNat ∧ c.toNat ≤ 90)) :
    lowerChar c = c :=
  dif_neg h

theorem lowerChar_wordChar (c : Char) (h : wordChar c = true) :
    wordChar (lowerChar c) = true := by
  simp only [wordChar, Bool.or_eq_true, Bool.and_eq_true, decide_eq_true_eq] at h ⊢
  rw [lowerChar_toNat]
  split <;> omega

theorem lowerChar_tagChar (c : Char) (h : tagChar c = true) :
    tagChar (lowerChar c) = true := by
  simp only [tagChar, Bool.or_eq_true, Bool.and_eq_true, decide_eq_true_eq] at h ⊢
  rw [lowerChar_toNat]
  split <;> omega

theorem lowerChar_idem (c : Char) : lowerChar (lowerChar c) = lowerChar c := by
  by_cases h : 65 ≤ c.toNat ∧ c.toNat ≤ 90
  · have h1 : (lowerChar c).toNat = c.toNat + 32 := by
      rw [lowerChar_toNat, if_pos h]
    exact lowerChar_of_not_upper _ (by omega)
  · have h1 : lowerChar c = c := lowerChar_of_not_upper _ h
    rw [h1]
    exact h1

theorem wordChar_ne_hash (c : Char) (h : wordChar c = true) : c ≠ '#' := by
  rintro rfl
  exact absurd h (by decide)

theorem tagChar_ne_hash (c : Char) (h : tagChar c = true) : c ≠ '#' := by
  rintro rfl
  exact absurd h (by decide)

theorem lowerChar_hash : lowerChar '#' = '#' := by decide

theorem lowerChar_wordChar_ne_hash (c : Char) (h : wordChar c = true) :
    lowerChar c ≠ '#' :=
  wordChar_ne_hash _ (lowerChar_wordChar c h)

/-! ## Shapes of the extracted runs -/

theorem runsAux_shape (p : Char → Bool) (l : List Char) :
    ∀ acc : List Char, (∀ c ∈ acc, p c = true) →
      ∀ r ∈ runsAux p l acc, r ≠ [] ∧ ∀ c ∈ r, p c = true := by
  induction l with
  | nil =>
    intro acc hacc r hr
    simp only [runsAux] at hr
    split at hr
    · simp at hr
    · next hne =>
      simp only [List.mem_singleton] at hr
      subst hr
      refine ⟨by simpa using hne, ?_⟩
      intro c hc
      exact hacc c (List.mem_reverse.mp hc)
  | cons c cs ih =>
    intro acc hacc r hr
    simp only [runsAux] at hr
    split at hr
    · next hpc =>
      refine ih (c :: acc) ?_ r hr
      intro d hd
      rcases List.mem_cons.mp hd with rfl | hd
      · exact hpc
      · exact hacc d hd
    · split at hr
      · exact ih [] (by simp) r hr
      · next hne =>
        rcases List.mem_cons.mp hr with rfl | hr
        · refine ⟨by simpa using hne, ?_⟩
          intro d hd
          exact hacc d (List.mem_reverse.mp hd)
        · exact ih [] (by simp) r hr

theorem wordParts_shape (line : String) (q : String) (hq : q ∈ wordParts line) :
    q.data ≠ [] ∧ ∀ c ∈ q.data, wordChar c = true := by
  obtain ⟨r, hr, rfl⟩ := List.mem_map.mp hq
  exact runsAux_shape wordChar line.data [] (by simp) r hr

theorem tagRunsAux_shape (l : List Char) :
    ∀ acc : List Char,
      (acc = [] ∨ ∃ body, acc = body ++ ['#'] ∧ ∀ c ∈ body, tagChar c = true) →
      ∀ r ∈ tagRunsAux l acc,
        ∃ body, r = '#' :: body ∧ body ≠ [] ∧ ∀ c ∈ body, tagChar c = true := by
  induction l with
  | nil =>
    intro acc hacc r hr
    simp only [tagRunsAux] at hr
    split at hr
    · next hlen =>
      simp only [List.mem_singleton] at hr
      subst hr
      rcases hacc with rfl | ⟨body, rfl, hbody⟩
      · simp at hlen
      · refine ⟨body.reverse, by simp, ?_, ?_⟩
        · intro hnil
          rw [List.reverse_eq_nil_iff] at hnil
          subst hnil
          simp at hlen
        · intro d hd
          exact hbody d (List.mem_reverse.mp hd)
    · simp at hr
  | cons c cs ih =>
    intro acc hacc r hr
    simp only [tagRunsAux] at hr
    split at hr
    · split at hr
      · next hch =>
        subst hch
        exact ih ['#'] (Or.inr ⟨[], rfl, by simp⟩) r hr
      · exact ih [] (Or.inl rfl) r hr
    · next hane =>
      split at hr
      · next htc =>
        rcases hacc with rfl | ⟨body, rfl, hbody⟩
        · exact absurd rfl hane
        · refine ih (c :: (body ++ ['#'])) (Or.inr ⟨c :: body, rfl, ?_⟩) r hr
          intro d hd
          rcases List.mem_cons.mp hd with rfl | hd
          · exact htc
          · exact hbody d hd
      · rcases List.mem_append.mp hr with hr1 | hr2
        · split at hr1
          · next hlen =>
            simp only [List.mem_singleton] at hr1
            subst hr1
            rcases hacc with rfl | ⟨body, rfl, hbody⟩
            · simp at hlen
            · refine ⟨body.reverse, by simp, ?_, ?_⟩
              · intro hnil
                rw [List.reverse_eq_nil_iff] at hnil
                subst hnil
                simp at hlen
              · intro d hd
                exact hbody d (List.mem_reverse.mp hd)
          · simp at hr1
        · split at hr2
          · next hch =>
            subst hch
            exact ih ['#'] (Or.inr ⟨[], rfl, by simp⟩) r hr2
          · exact ih [] (Or.inl rfl) r hr2

theorem tagParts_shape (line : String) (q : String) (hq : q ∈ tagParts line) :
    ∃ body, q.data = '#' :: body ∧ body ≠ [] ∧ ∀ c ∈ body, tagChar c = true := by
  obtain ⟨r, hr, rfl⟩ := List.mem_map.mp hq
  exact tagRunsAux_shape line.data [] (Or.inl rfl) r hr

/-! ## First-occurrence deduplication -/

/-- Deduplication keeping the first occurrence of each element, as performed
by the `if token not in tokens: tokens.append(token)` loops. -/
def firstDedup : List String → List String
  | [] => []
  | a :: l => a :: (firstDedup l).filter fun b => b ≠ a

theorem mem_firstDedup (a : String) (l : List String) :
    a ∈ firstDedup l ↔ a ∈ l := by
  induction l with
  | nil => simp [firstDedup]
  | cons x l ih =>
    by_cases hax : a = x
    · subst hax
      simp [firstDedup]
    · simp [firstDedup, List.mem_filter, ih, hax]

/-! ## The deduplicating fold of `get_note_tokens` -/

theorem filter_ne_idem (l : List String) (a : String) :
    ((l.filter fun b => b ≠ a).filter fun b => b ≠ a) = l.filter fun b => b ≠ a := by
  rw [List.filter_filter]
  apply List.filter_congr
  intro t _
  by_cases h : t = a <;> simp [h]

theorem filter_ne_comm (l : List String) (a b : String) :
    ((l.filter fun c => c ≠ a).filter fun c => c ≠ b) =
      (l.filter fun c => c ≠ b).filter fun c => c ≠ a := by
  rw [List.filter_filter, List.filter_filter]
  apply List.filter_congr
  intro t _
  by_cases h1 : t = a <;> by_cases h2 : t = b <;> simp [h1, h2]

theorem filter_not_mem_nil (l : List String) :
    (l.filter fun t => t ∉ ([] : List String)) = l := by
  rw [List.filter_eq_self]
  intro a _
  simp

theorem firstDedup_filter (l : List String) (a : String) :
    firstDedup (l.filter fun b => b ≠ a) = (firstDedup l).filter fun b => b ≠ a := by
  induction l with
  | nil => rfl
  | cons x l ih =>
    by_cases hx : x = a
    · subst hx
      rw [List.filter_cons, if_neg (by simp), ih]
      simp only [firstDedup]
      rw [List.filter_cons, if_neg (by simp)]
      exact (filter_ne_idem _ _).symm
    · rw [List.filter_cons, if_pos (by simp [hx])]
      simp only [firstDedup]
      rw [ih]
      rw [List.filter_cons, if_pos (by simp [hx])]
      exact congrArg (x :: ·) (filter_ne_comm _ _ _)

/-- The loop `for part in parts: token = f(part); if token not in tokens:
tokens.append(token)` run from accumulator `acc`. -/
theorem foldl_dedup (f : String → String) (parts : List String) (acc : List String) :
    parts.foldl
      (fun tokens part => if f part ∈ tokens then tokens else tokens ++ [f part]) acc
      = acc ++ firstDedup ((parts.map f).filter fun t => t ∉ acc) := by
  induction parts generalizing acc with
  | nil => simp [firstDedup]
  | cons p rest ih =>
    simp only [List.foldl_cons, List.map_cons]
    by_cases hp : f p ∈ acc
    · rw [if_pos hp, ih]
      congr 2
      rw [List.filter_cons, if_neg (by simp [hp])]
    · rw [if_neg hp, ih]
      rw [List.filter_cons, if_pos (by simp [hp])]
      simp only [firstDedup]
      rw [List.append_assoc, List.singleton_append]
      congr 2
      rw [← firstDedup_filter]
      congr 1
      rw [List.filter_filter]
      apply List.filter_congr
      intro t _
      by_cases h1 : t = f p <;> by_cases h2 : t ∈ acc <;>
        simp [h1, h2]

/-! ## Key shapes and disjointness of the token classes -/

theorem lowerStr_data (s : String) : (lowerStr s).data = s.data.map lowerChar :=
  rfl

theorem get_word_key_data (w : String) :
    (get_word_key w).data = 'w' :: '_' :: w.data.map lowerChar := by
  simp [get_word_key, lowerStr]

theorem lowerChar_hash' : lowerChar '#' = '#' := by decide

/-- A tag token never coincides with a word token: its third character is
`#`, which the third character of a word token never is. -/
theorem tagKey_ne_wordKey (line : String) (q p : String)
    (hq : q ∈ tagParts line) (hp : p ∈ wordParts line) :
    get_word_key (lowerStr q) ≠ get_word_key (lowerStr p) := by
  obtain ⟨body, hqd, _, _⟩ := tagParts_shape line q hq
  obtain ⟨hpne, hpchars⟩ := wordParts_shape line p hp
  obtain ⟨c, rest, hcd⟩ := List.exists_cons_of_ne_nil hpne
  intro heq
  have hd : (get_word_key (lowerStr q)).data = (get_word_key (lowerStr p)).data := by
    rw [heq]
  rw [get_word_key_data, get_word_key_data, lowerStr_data, lowerStr_data,
    List.map_map, List.map_map, hqd, hcd] at hd
  simp only [List.map_cons, List.cons.injEq, Function.comp_apply] at hd
  have h3 : lowerChar (lowerChar '#') = lowerChar (lowerChar c) := hd.2.2.1
  rw [lowerChar_hash', lowerChar_hash'] at h3
  have hcw : wordChar c = true := hpchars c (by rw [hcd]; exact List.mem_cons_self c rest)
  exact lowerChar_wordChar_ne_hash _ (lowerChar_wordChar _ hcw) h3.symm

/-- `get_note_tokens` decomposed: first-occurrence-deduplicated word tokens,
then first-occurrence-deduplicated tag tokens, then the temporal tokens. -/
theorem get_note_tokens_decompose (ts : Nat) (line : String) :
    get_note_tokens ts line =
      firstDedup ((wordParts line).map fun p => get_word_key (lowerStr p))
        ++ firstDedup ((tagParts line).map fun p => get_word_key (lowerStr p))
        ++ temporalTokens ts := by
  simp only [get_note_tokens]
  rw [foldl_dedup, foldl_dedup, filter_not_mem_nil, List.nil_append,
    List.append_assoc, List.append_assoc]
  congr 1
  congr 1
  congr 1
  rw [List.filter_eq_self]
  intro a ha
  obtain ⟨q, hq, rfl⟩ := List.mem_map.mp ha
  simp only [decide_eq_true_eq]
  intro hmem
  rw [mem_firstDedup] at hmem
  obtain ⟨p, hp, hkey⟩ := List.mem_map.mp hmem
  exact tagKey_ne_wordKey line q p hq hp hkey.symm

/-! ## Temporal tokens and token membership -/

theorem take_two_append (a b : Char) (r x : List Char) :
    ((a :: b :: r) ++ x).take 2 = [a, b] :=
  rfl

/-- No temporal token starts with the two characters `w_` — temporal
postings are *outside* the `w_` namespace. -/
theorem temporal_not_w (ts : Nat) (tok : String) (h : tok ∈ temporalTokens ts) :
    tok.data.take 2 ≠ ['w', '_'] := by
  simp only [temporalTokens, List.mem_cons, List.not_mem_nil, or_false] at h
  rcases h with rfl | rfl | rfl | rfl | rfl
  · rw [String.data_append,
      show ("year_" : String).data = 'y' :: 'e' :: ['a', 'r', '_'] from rfl,
      take_two_append]
    decide
  · rw [String.data_append,
      show ("month_" : String).data = 'm' :: 'o' :: ['n', 't', 'h', '_'] from rfl,
      take_two_append]
    decide
  · rw [String.data_append,
      show ("day_" : String).data = 'd' :: 'a' :: ['y', '_'] from rfl,
      take_two_append]
    decide
  · rw [String.data_append,
      show ("hour_" : String).data = 'h' :: 'o' :: ['u', 'r', '_'] from rfl,
      take_two_append]
    decide
  · rw [String.data_append,
      show ("weekday_" : String).data = 'w' :: 'e' :: ['e', 'k', 'd', 'a', 'y', '_'] from rfl,
      take_two_append]
    decide

theorem mem_get_note_tokens (ts : Nat) (line : String) (tok : String)
    (h : tok ∈ get_note_tokens ts line) :
    (∃ p ∈ wordParts line, tok = get_word_key (lowerStr p)) ∨
    (∃ q ∈ tagParts line, tok = get_word_key (lowerStr q)) ∨
    tok ∈ temporalTokens ts := by
  rw [get_note_tokens_decompose] at h
  rcases List.mem_append.mp h with h1 | h2
  · rcases List.mem_append.mp h1 with h3 | h4
    · rw [mem_firstDedup] at h3
      obtain ⟨p, hp, heq⟩ := List.mem_map.mp h3
      exact Or.inl ⟨p, hp, heq.symm⟩
    · rw [mem_firstDedup] at h4
      obtain ⟨q, hq, heq⟩ := List.mem_map.mp h4
      exact Or.inr (Or.inl ⟨q, hq, heq.symm⟩)
  · exact Or.inr (Or.inr h2)

theorem temporal_mem_get_note_tokens (ts : Nat) (line : String) (tok : String)
    (h : tok ∈ temporalTokens ts) : tok ∈ get_note_tokens ts line := by
  rw [get_note_tokens_decompose]
  exact List.mem_append.mpr (Or.inr h)

/-! ## Concrete stores used by the witnesses -/

/-- The three-note store of the spec's §8 scenarios. -/
def exampleStore : Store :=
  add_redis_note
    (add_redis_note (add_redis_note emptyStore 100 "buy milk #errand")
      200 "write code")
    300 "buy bread #errand"

/-- A one-note store. -/
def exampleStore1 : Store :=
  add_redis_note emptyStore 1 "alpha"

/-! ## The claims -/

/-- C1: the claim says an empty search result is an empty sequence, and the
spec calls the source's sentinel a bug.  The code indeed returns the
placeholder pair `[(None, None)]` (length 1), not an empty sequence: here on
the empty store with `inclusion_terms = {"nonexistentword"}`. -/
theorem claim_C1_sentinel_on_empty_result :
    find_redis_notes emptyStore ⟨["nonexistentword"], []⟩ = some [(none, none)] ∧
    some [((none : Option Nat), (none : Option String))] ≠
      some ([] : List (Option Nat × Option String)) := by
  constructor
  · decide
  · decide

/-- C2 counterexample: the invariant as stated fails for the call sequence
`save(0, "a"); save(0, "b")` — the second save overwrites the note without
clearing the postings of the first, so `0` is still in the postings of
`w_a` although the stored note `"b"` does not tokenize to `w_a`. -/
theorem claim_C2_counterexample :
    ¬ Inv (applyOps emptyStore [.save 0 "a", .save 0 "b"]) := by
  intro h
  obtain ⟨note, hnote, htok⟩ := (h "w_a" 0).mp (by decide)
  have hb : (applyOps emptyStore [NoteOp.save 0 "a", NoteOp.save 0 "b"]).getNote 0 =
      some "b" := by decide
  rw [hb] at hnote
  obtain rfl : "b" = note := by injection hnote
  exact absurd htok (by decide)

/-- C2 (amended): for any sequence of save/delete/update calls starting from
the empty store in which every save — including the save step of each
update — writes to a timestamp that holds no note at that moment, at every
quiescent point a timestamp is in a token's postings set iff the stored note
at that timestamp tokenizes to include the token. -/
theorem claim_C2_postings_invariant (ops : List NoteOp)
    (h : freshSaves emptyStore ops = true) :
    ∀ pre, pre <+: ops → Inv (applyOps emptyStore pre) := by
  intro pre hpre
  obtain ⟨suf, rfl⟩ := hpre
  exact inv_applyOps pre emptyStore inv_emptyStore (freshSaves_append _ _ _ h)

theorem claim_C2_postings_invariant_witness :
    Inv (applyOps emptyStore
      [NoteOp.save 0 "buy milk", NoteOp.update 0 1 "sell milk", NoteOp.delete 1]) :=
  claim_C2_postings_invariant
    [NoteOp.save 0 "buy milk", NoteOp.update 0 1 "sell milk", NoteOp.delete 1]
    (by decide) _ ⟨[], rfl⟩

/-- C3 counterexample: after saving a note at timestamp 0, its temporal
posting for the year is stored under `year_1970`, not `w_year_1970` as the
claim (from the spec's §6 key table) states. -/
theorem claim_C3_counterexample :
    0 ∈ (add_redis_note emptyStore 0 "").sets "year_1970" ∧
    0 ∉ (add_redis_note emptyStore 0 "").sets "w_year_1970" := by
  constructor
  · decide
  · decide

/-- C3 (amended): the five temporal postings of a saved note are stored
under the keys `year_<YYYY>`, `month_<M>`, `day_<D>`, `hour_<H>` and
`weekday_<W>` — *without* the `w_` prefix, so temporal tokens do not share
the `w_` namespace of word and tag tokens. -/
theorem claim_C3_temporal_key_shape (st : Store) (ts : Nat) (note : String) :
    temporalTokens ts =
      ["year_" ++ toString (gmtime ts).tm_year,
       "month_" ++ toString (gmtime ts).tm_mon,
       "day_" ++ toString (gmtime ts).tm_mday,
       "hour_" ++ toString (gmtime ts).tm_hour,
       "weekday_" ++ toString (gmtime ts).tm_wday] ∧
    ∀ tok ∈ temporalTokens ts,
      ts ∈ (add_redis_note st ts note).sets tok ∧ tok.data.take 2 ≠ ['w', '_'] := by
  refine ⟨rfl, ?_⟩
  intro tok htok
  refine ⟨?_, temporal_not_w ts tok htok⟩
  rw [sets_add_redis_note, if_pos (temporal_mem_get_note_tokens ts note tok htok)]
  exact Finset.mem_insert_self ts _

theorem claim_C3_temporal_key_shape_witness :
    0 ∈ (add_redis_note emptyStore 0 "").sets "year_1970" ∧
    ("year_1970" : String).data.take 2 ≠ ['w', '_'] :=
  (claim_C3_temporal_key_shape emptyStore 0 "").2 "year_1970" (by decide)

/-- C4, the resolved set exactly as the claim words it. -/
def spec_resolve (st : Store) (req : SearchRequest) : Finset Nat :=
  if req.inclusion_terms ≠ [] ∧ req.exclusion_terms ≠ [] then
    st.sinter (req.inclusion_terms.map get_word_key) \
      st.sunion (req.exclusion_terms.map get_word_key)
  else if req.inclusion_terms ≠ [] then
    st.sinter (req.inclusion_terms.map get_word_key)
  else if req.exclusion_terms ≠ [] then
    all_note_timestamps st \ st.sunion (req.exclusion_terms.map get_word_key)
  else
    all_note_timestamps st

theorem spec_resolve_eq (st : Store) (req : SearchRequest) :
    spec_resolve st req = resolve_timestamps st req := by
  rcases req with ⟨incl, excl⟩
  by_cases h1 : incl = [] <;> by_cases h2 : excl = [] <;>
    simp [spec_resolve, resolve_timestamps, h1, h2]

/-- C4: `find_redis_notes` resolves the four request shapes by the claimed
set algebra (`spec_resolve`), and a non-empty result is sorted ascending and
zipped positionally with the batch-fetched note texts. -/
theorem claim_C4_find_resolution (st : Store) (req : SearchRequest)
    (h1 : spec_resolve st req ≠ ∅)
    (h2 : ∀ u ∈ spec_resolve st req, (st.getNote u).isSome) :
    find_redis_notes st req =
      some (((spec_resolve st req).sort (· ≤ ·)).map fun u => (some u, st.getNote u)) := by
  rw [spec_resolve_eq] at h1 h2
  rw [spec_resolve_eq, ← sortTimestamps_eq_sort]
  exact find_redis_notes_eq st req h1 h2

theorem claim_C4_find_resolution_witness :
    find_redis_notes exampleStore ⟨["buy"], []⟩ =
      some (((spec_resolve exampleStore ⟨["buy"], []⟩).sort (· ≤ ·)).map
        fun u => (some u, exampleStore.getNote u)) :=
  claim_C4_find_resolution exampleStore ⟨["buy"], []⟩ (by decide) (by decide)

/-- C5: on a well-formed store (every posting points at a stored note),
`save(ts, text)` followed by `find({w}, {})` for any token `w` of `text`
returns a sequence containing the pair `(ts, text)`. -/
theorem claim_C5_round_trip (st : Store) (ts : Nat) (text w : String)
    (hwf : ∀ k u, u ∈ st.sets k → (st.getNote u).isSome)
    (hw : get_word_key w ∈ get_note_tokens ts text) :
    ∃ l, find_redis_notes (add_redis_note st ts text) ⟨[w], []⟩ = some l ∧
      (some ts, some text) ∈ l := by
  have hres : resolve_timestamps (add_redis_note st ts text) ⟨[w], []⟩ =
      (add_redis_note st ts text).sets (get_word_key w) :=
    resolve_timestamps_single_inclusion _ w
  have hsets : (add_redis_note st ts text).sets (get_word_key w) =
      insert ts (st.sets (get_word_key w)) := by
    rw [sets_add_redis_note, if_pos hw]
  have hne : resolve_timestamps (add_redis_note st ts text) ⟨[w], []⟩ ≠ ∅ := by
    rw [hres, hsets]
    exact Finset.insert_ne_empty _ _
  have hall : ∀ u ∈ resolve_timestamps (add_redis_note st ts text) ⟨[w], []⟩,
      ((add_redis_note st ts text).getNote u).isSome := by
    intro u hu
    rw [hres, hsets] at hu
    rw [getNote_add_redis_note]
    by_cases hu2 : u = ts
    · rw [if_pos hu2]
      rfl
    · rw [if_neg hu2]
      rcases Finset.mem_insert.mp hu with h | h
      · exact absurd h hu2
      · exact hwf _ u h
  refine ⟨_, find_redis_notes_eq _ _ hne hall, ?_⟩
  apply List.mem_map.mpr
  refine ⟨ts, ?_, ?_⟩
  · rw [mem_sortTimestamps, hres, hsets]
    exact Finset.mem_insert_self ts _
  · rw [getNote_add_redis_note, if_pos rfl]

theorem claim_C5_round_trip_witness :
    ∃ l, find_redis_notes (add_redis_note emptyStore 100 "buy milk") ⟨["buy"], []⟩ =
      some l ∧ (some 100, some "buy milk") ∈ l :=
  claim_C5_round_trip emptyStore 100 "buy milk" "buy"
    (fun k u h => absurd h (by simp [emptyStore])) (by decide)

/-- C6: `get_note_tokens` is total on strings and returns the
first-occurrence-deduplicated word tokens, then the
first-occurrence-deduplicated tag tokens, then exactly the five temporal
tokens; the empty string yields exactly the five temporal tokens. -/
theorem claim_C6_tokenizer_shape (ts : Nat) (line : String) :
    get_note_tokens ts line =
      firstDedup ((wordParts line).map fun p => get_word_key (lowerStr p))
        ++ firstDedup ((tagParts line).map fun p => get_word_key (lowerStr p))
        ++ temporalTokens ts ∧
    (temporalTokens ts).length = 5 ∧
    get_note_tokens ts "" = temporalTokens ts := by
  refine ⟨get_note_tokens_decompose ts line, rfl, ?_⟩
  rw [get_note_tokens_decompose]
  rfl

/-- C7 counterexample: the note `#a[` produces the tag token `w_#a[`, whose
body contains `[` — not an alphanumeric, hyphen or underscore character —
because the regex class `[A-z0-9-_]` also spans the ASCII codes between `Z`
and `a`. -/
theorem claim_C7_counterexample :
    "w_#a[" ∈ get_note_tokens 0 "#a[" ∧
    '[' ∈ ("w_#a[" : String).data ∧
    ¬('['.isAlphanum || '[' = '-' || '[' = '_') := by
  refine ⟨by decide, by decide, by decide⟩

/-- C7 (amended): every tag token of a note is `w_#` followed by a run of
characters from the regex class `[A-z0-9-_]` — which, because `A-z` spans
ASCII 65–122, also admits `[`, `\`, `]`, `^`, `` ` `` — each fixed under
lower-casing. -/
theorem claim_C7_tag_token_chars (ts : Nat) (line : String) (tok : String)
    (hmem : tok ∈ get_note_tokens ts line)
    (htag : tok.data.take 3 = ['w', '_', '#']) :
    ∀ c ∈ tok.data.drop 3, tagChar c = true ∧ lowerChar c = c := by
  rcases mem_get_note_tokens ts line tok hmem with ⟨p, hp, rfl⟩ | ⟨q, hq, rfl⟩ | htemp
  · exfalso
    obtain ⟨hpne, hpchars⟩ := wordParts_shape line p hp
    obtain ⟨c, rest, hcd⟩ := List.exists_cons_of_ne_nil hpne
    rw [get_word_key_data, lowerStr_data, List.map_map, hcd, List.map_cons] at htag
    rw [show ∀ (y : Char) (l : List Char),
      List.take 3 ('w' :: '_' :: y :: l) = ['w', '_', y] from fun y l => rfl] at htag
    simp only [List.cons.injEq, Function.comp_apply, and_true, true_and] at htag
    exact lowerChar_wordChar_ne_hash _
      (lowerChar_wordChar _ (hpchars c (by rw [hcd]; exact List.mem_cons_self _ _)))
      htag
  · obtain ⟨body, hqd, _, hbchars⟩ := tagParts_shape line q hq
    intro ch hch
    rw [get_word_key_data, lowerStr_data, List.map_map, hqd, List.map_cons] at hch
    rw [show ∀ (y : Char) (l : List Char),
      List.drop 3 ('w' :: '_' :: y :: l) = l from fun y l => rfl] at hch
    obtain ⟨c, hc, rfl⟩ := List.mem_map.mp hch
    constructor
    · simp only [Function.comp_apply]
      exact lowerChar_tagChar _ (lowerChar_tagChar _ (hbchars c hc))
    · simp only [Function.comp_apply]
      exact lowerChar_idem (lowerChar c)
  · exfalso
    apply temporal_not_w ts tok htemp
    have h4 : (tok.data.take 3).take 2 = ['w', '_'] := by
      rw [htag]
      rfl
    rwa [List.take_take, show min 2 3 = 2 from rfl] at h4

theorem claim_C7_tag_token_chars_witness :
    tagChar 'a' = true ∧ lowerChar 'a' = 'a' :=
  claim_C7_tag_token_chars 0 "#ab" "w_#ab" (by decide) (by decide) 'a' (by decide)

/-- C8: `update(ts1, ts2, newText)` erases `ts1` from the postings of
exactly the old stored text's tokens and inserts `ts2` into the postings of
exactly `newText`'s tokens; a subsequent find on a token of the old text
only (when `ts2` was not already stale in that postings set) returns no
pair carrying `ts2`. -/
theorem claim_C8_update_semantics (st : Store) (ts1 ts2 : Nat)
    (old_note new_note : String) (hold : st.getNote ts1 = some old_note) :
    (∀ t, (update_note st ts1 ts2 new_note).sets t =
      (let base := if t ∈ get_note_tokens ts1 old_note then (st.sets t).erase ts1
        else st.sets t
      if t ∈ get_note_tokens ts2 new_note then insert ts2 base else base)) ∧
    (∀ w : String, get_word_key w ∈ get_note_tokens ts1 old_note →
      get_word_key w ∉ get_note_tokens ts2 new_note →
      (ts2 = ts1 ∨ ts2 ∉ st.sets (get_word_key w)) →
      ∀ l, find_redis_notes (update_note st ts1 ts2 new_note) ⟨[w], []⟩ = some l →
        ∀ p ∈ l, p.1 ≠ some ts2) := by
  have hsets : ∀ t, (update_note st ts1 ts2 new_note).sets t =
      (let base := if t ∈ get_note_tokens ts1 old_note then (st.sets t).erase ts1
        else st.sets t
      if t ∈ get_note_tokens ts2 new_note then insert ts2 base else base) := by
    intro t
    show (add_redis_note (delete_redis_note st ts1) ts2 new_note).sets t = _
    rw [sets_add_redis_note, sets_delete_redis_note st ts1 old_note hold]
  refine ⟨hsets, ?_⟩
  intro w hwold hwnew hfresh l hfind p hp
  rcases find_redis_notes_mem_fst _ _ l hfind p hp with h | ⟨u, hu, humem⟩
  · rw [h]
    exact fun hc => Option.noConfusion hc
  · rw [hu]
    intro hc
    obtain rfl : u = ts2 := by injection hc
    rw [resolve_timestamps_single_inclusion, hsets (get_word_key w)] at humem
    simp only [if_pos hwold, if_neg hwnew] at humem
    rcases hfresh with rfl | hnot
    · exact absurd humem (Finset.not_mem_erase _ _)
    · exact hnot (Finset.mem_of_mem_erase humem)

theorem claim_C8_update_semantics_witness :
    (∀ t, (update_note exampleStore1 1 2 "beta").sets t =
      (let base := if t ∈ get_note_tokens 1 "alpha" then
          (exampleStore1.sets t).erase 1
        else exampleStore1.sets t
      if t ∈ get_note_tokens 2 "beta" then insert 2 base else base)) ∧
    (∀ w : String, get_word_key w ∈ get_note_tokens 1 "alpha" →
      get_word_key w ∉ get_note_tokens 2 "beta" →
      (2 = 1 ∨ 2 ∉ exampleStore1.sets (get_word_key w)) →
      ∀ l, find_redis_notes (update_note exampleStore1 1 2 "beta") ⟨[w], []⟩ = some l →
        ∀ p ∈ l, p.1 ≠ some 2) :=
  claim_C8_update_semantics exampleStore1 1 2 "alpha" "beta" (by decide)

/-- C9: deleting a timestamp holding no note is a silent no-op that returns
the store unchanged, and deleting twice in a row is safe — the second
delete changes nothing. -/
theorem claim_C9_delete_noop (st : Store) (ts : Nat) :
    (st.getNote ts = none → delete_redis_note st ts = st) ∧
    delete_redis_note (delete_redis_note st ts) ts = delete_redis_note st ts := by
  refine ⟨delete_redis_note_of_none st ts, ?_⟩
  apply delete_redis_note_of_none
  rw [getNote_delete_redis_note, if_pos rfl]

theorem claim_C9_delete_noop_witness :
    delete_redis_note emptyStore 5 = emptyStore ∧
    delete_redis_note (delete_redis_note emptyStore 5) 5 =
      delete_redis_note emptyStore 5 :=
  ⟨(claim_C9_delete_noop emptyStore 5).1 rfl, (claim_C9_delete_noop emptyStore 5).2⟩

/-- C10: `get_common_words` returns exactly the `w_*`-matching store keys
with their first two characters stripped — so a hashtag postings key
`w_#tag` contributes `#tag` with its `#` retained — and no temporal token
key matches the `w_*` pattern. -/
theorem claim_C10_common_words (keys : List String) :
    (∀ s : String, s ∈ get_common_words keys ↔
      ∃ k ∈ keys, k.data.take 2 = ['w', '_'] ∧ String.mk (k.data.drop 2) = s) ∧
    (∀ w : String, (get_word_key w).data.drop 2 = (lowerStr w).data) ∧
    (∀ ts : Nat, ∀ tok ∈ temporalTokens ts, tok.data.take 2 ≠ ['w', '_']) := by
  refine ⟨?_, ?_, fun ts tok h => temporal_not_w ts tok h⟩
  · intro s
    simp only [get_common_words, List.mem_toFinset, List.mem_map, List.mem_filter,
      beq_iff_eq]
    constructor
    · rintro ⟨k, ⟨hk, htake⟩, rfl⟩
      exact ⟨k, hk, htake, rfl⟩
    · rintro ⟨k, hk, htake, rfl⟩
      exact ⟨k, ⟨hk, htake⟩, rfl⟩
  · intro w
    rw [get_word_key_data]
    rfl

theorem claim_C10_common_words_witness :
    ("#bar" ∈ get_common_words ["w_#bar", "year_1970"]) ∧
    ("year_1970" : String).data.take 2 ≠ ['w', '_'] :=
  ⟨((claim_C10_common_words ["w_#bar", "year_1970"]).1 "#bar").mpr
      ⟨"w_#bar", by decide, by decide, by decide⟩,
    (claim_C10_common_words ["w_#bar", "year_1970"]).2.2 0 "year_1970" (by decide)⟩

end RedisNotes
